import Mathlib

/-!
Verification development for the ctf-exchange repository.

The repository ships a configuration module (src/config.py) that
parameterizes a central-limit-order-book (CLOB) market core: maker and
taker fee percentages, an order-book cache TTL, a book update interval, and
a maximum displayed book depth.  The matching engine, order book, fee
calculator and snapshot cache that this configuration parameterizes are
described in the design specification; where their code is not present in
the repository, the corresponding definitions below are modelled from the
specification text and are marked as such in their doc comments.

Python numeric literals are embedded exactly: the decimal literals 0.001
and 0.002 denote the rational numbers 1/1000 and 2/1000.  The literal kind
(int / float / str) is recorded separately, because the specification
distinguishes fixed-point from floating-point representations.
-/

namespace CtfExchange

/-- Kind-tagged embedding of a Python literal as it appears in config.py:
an int literal, a float literal (carrying the exact decimal value the
literal denotes), or a string literal. -/
inductive PyLit where
  | intLit : Int → PyLit
  | floatLit : Rat → PyLit
  | strLit : String → PyLit
deriving DecidableEq

/-- Whether a config literal is a floating-point literal. -/
def PyLit.isFloat : PyLit → Bool
  | .floatLit _ => true
  | _ => false

/-- Numeric value denoted by a config literal (string literals denote 0). -/
def PyLit.toRat : PyLit → Rat
  | .intLit n => (n : Rat)
  | .floatLit q => q
  | .strLit _ => 0

/-- From src/config.py line 14: MAKER_FEE_PERCENTAGE = 0.001, a Python
float literal denoting 1/1000. -/
def MAKER_FEE_PERCENTAGE_LIT : PyLit := .floatLit (1 / 1000)

/-- From src/config.py line 15: TAKER_FEE_PERCENTAGE = 0.002, a Python
float literal denoting 2/1000. -/
def TAKER_FEE_PERCENTAGE_LIT : PyLit := .floatLit (2 / 1000)

/-- The maker fee percentage shipped in src/config.py. -/
def MAKER_FEE_PERCENTAGE : Rat := MAKER_FEE_PERCENTAGE_LIT.toRat

/-- The taker fee percentage shipped in src/config.py. -/
def TAKER_FEE_PERCENTAGE : Rat := TAKER_FEE_PERCENTAGE_LIT.toRat

/-- From src/config.py line 31: ORDER_BOOK_CACHE_TTL = 300 (seconds). -/
def ORDER_BOOK_CACHE_TTL : Nat := 300

/-- From src/config.py line 32: ORDER_BOOK_UPDATE_INTERVAL = 1 (second). -/
def ORDER_BOOK_UPDATE_INTERVAL : Nat := 1

/-- From src/config.py line 33: MAX_ORDER_BOOK_DEPTH = 10 price levels
per side. -/
def MAX_ORDER_BOOK_DEPTH : Nat := 10

/-- The five flat global configuration values that parameterize the CLOB
core, per the specification: fee percentages, snapshot TTL, update
interval, maximum displayed depth. -/
structure CoreConfig where
  makerFeePercentage : Rat
  takerFeePercentage : Rat
  orderBookCacheTTL : Nat
  orderBookUpdateInterval : Nat
  maxOrderBookDepth : Nat
deriving DecidableEq

/-- The shipped core configuration, read off src/config.py. -/
def coreConfig : CoreConfig :=
  { makerFeePercentage := MAKER_FEE_PERCENTAGE
    takerFeePercentage := TAKER_FEE_PERCENTAGE
    orderBookCacheTTL := ORDER_BOOK_CACHE_TTL
    orderBookUpdateInterval := ORDER_BOOK_UPDATE_INTERVAL
    maxOrderBookDepth := MAX_ORDER_BOOK_DEPTH }

/-- Hard-coded fallback deployer private key from src/config.py line 27. -/
def DEFAULT_DEPLOYER_PRIVATE_KEY : String :=
  "0xb9ad02245ee24d992f9fd7216f9729251f9defdec940f9b97fdfd7b173bca19f"

/-- Hard-coded fallback deployer account address from src/config.py
line 28. -/
def DEFAULT_DEPLOYER_ACCOUNT_ADDRESS : String :=
  "0xB6f0bf48ACf3Edc3d86717B5819640dA7F078B3B"

/-- Environment-variable name used on src/config.py line 27. -/
def DEPLOYER_PRIVATE_KEY_VAR : String := "DEPLOYER_PRIVATE_KEY"

/-- Environment-variable name used on src/config.py line 28. -/
def DEPLOYER_ACCOUNT_ADDRESS_VAR : String := "DEPLOYER_ACCOUNT_ADDRESS"

/-- src/config.py line 27: os.environ.get with a hard-coded default.  The
process environment is embedded as a partial map from variable names to
values. -/
def DEPLOYER_PRIVATE_KEY (env : String → Option String) : String :=
  (env DEPLOYER_PRIVATE_KEY_VAR).getD DEFAULT_DEPLOYER_PRIVATE_KEY

/-- src/config.py line 28: os.environ.get with a hard-coded default. -/
def DEPLOYER_ACCOUNT_ADDRESS (env : String → Option String) : String :=
  (env DEPLOYER_ACCOUNT_ADDRESS_VAR).getD DEFAULT_DEPLOYER_ACCOUNT_ADDRESS

/-- Role of an order in a matched trade. -/
inductive Role where
  | maker
  | taker
deriving DecidableEq

/-- Modelled from the spec: the Fee Calculator is absent from src/ (only
its percentage configuration is shipped).  Section 4.4: a pure function
mapping (role, trade notional) to a fee amount, multiplying the notional
by the configured percentage for the role. -/
def fee (role : Role) (notional : Rat) : Rat :=
  notional * (match role with
    | .maker => MAKER_FEE_PERCENTAGE
    | .taker => TAKER_FEE_PERCENTAGE)

/-- The common denominator of the shipped fee percentages: both are exact
multiples of 1/1000. -/
def FEE_SCALE : Int := 1000

/-- The shipped fee percentages as scaled integers over FEE_SCALE:
maker 1/1000, taker 2/1000. -/
def feeRateScaled (role : Role) : Int :=
  match role with
  | .maker => 1
  | .taker => 2

/-- Modelled from the spec: fixed-point fee computation (section 4.4 and
section 9 require scaled-integer arithmetic with truncation toward zero;
no fee code is present in src/).  The notional is a scaled integer; the
result truncates toward zero. -/
def feeFixed (role : Role) (notional : Int) : Int :=
  Int.tdiv (notional * feeRateScaled role) FEE_SCALE

/-- Side of an order. -/
inductive Side where
  | buy
  | sell
deriving DecidableEq

/-- Modelled from the spec: the Order data model (section 3) is absent
from src/.  Identity, side, fixed-point integer price, remaining quantity,
and monotonic arrival sequence number used as the tie-break. -/
structure Order where
  id : Nat
  side : Side
  price : Int
  qty : Int
  seq : Nat
deriving DecidableEq

/-- Modelled from the spec: the two-sided Order Book (sections 3 and 4.2)
is absent from src/.  Each side is the concatenation of its price level
ledgers in priority order: bids sorted by descending price, asks by
ascending price, FIFO by arrival sequence within a price level.  Price
levels and their FIFO queues are recovered from this flattened priority
list. -/
structure Book where
  bids : List Order
  asks : List Order
deriving DecidableEq

/-- The empty book. -/
def Book.empty : Book := ⟨[], []⟩

/-- Best bid: price of the highest-priority resting bid, none if empty. -/
def bestBid (b : Book) : Option Int := b.bids.head?.map (fun o => o.price)

/-- Best ask: price of the highest-priority resting ask, none if empty. -/
def bestAsk (b : Book) : Option Int := b.asks.head?.map (fun o => o.price)

/-- Priority order on the bid side: higher price first, then lower arrival
sequence first at equal price. -/
def bidBefore (a b : Order) : Prop :=
  b.price < a.price ∨ (a.price = b.price ∧ a.seq < b.seq)

/-- Priority order on the ask side: lower price first, then lower arrival
sequence first at equal price. -/
def askBefore (a b : Order) : Prop :=
  a.price < b.price ∨ (a.price = b.price ∧ a.seq < b.seq)

/-- Modelled from the spec (section 4.2): insert a resting bid at its
priority position, after all orders at a better or equal price (FIFO at
the tail of its own price level). -/
def insertBid (o : Order) : List Order → List Order
  | [] => [o]
  | r :: rest =>
      if r.price < o.price then o :: r :: rest else r :: insertBid o rest

/-- Modelled from the spec (section 4.2): insert a resting ask at its
priority position, after all orders at a better or equal price (FIFO at
the tail of its own price level). -/
def insertAsk (o : Order) : List Order → List Order
  | [] => [o]
  | r :: rest =>
      if o.price < r.price then o :: r :: rest else r :: insertAsk o rest

/-- Modelled from the spec: the Trade record (section 3) is absent from
src/.  Maker and taker order ids, the executed price (the resting maker
order price), executed quantity, and the two fees computed by the Fee
Calculator from the notional price times quantity. -/
structure Trade where
  makerId : Nat
  takerId : Nat
  price : Int
  qty : Int
  makerFee : Rat
  takerFee : Rat
deriving DecidableEq

/-- Build the trade for matching quantity q of the incoming taker against
the resting maker order, at the resting order price (section 4.3
price-improvement rule), with fees per section 4.4. -/
def mkTrade (resting taker : Order) (q : Int) : Trade :=
  { makerId := resting.id
    takerId := taker.id
    price := resting.price
    qty := q
    makerFee := fee Role.maker ((resting.price * q : Int) : Rat)
    takerFee := fee Role.taker ((resting.price * q : Int) : Rat) }

/-- Whether an incoming order at price takerPrice crosses a resting
opposite order at price restingPrice: a buy crosses any ask priced at or
below it, a sell crosses any bid priced at or above it. -/
def crosses (side : Side) (takerPrice restingPrice : Int) : Bool :=
  match side with
  | .buy => restingPrice ≤ takerPrice
  | .sell => takerPrice ≤ restingPrice

/-- Modelled from the spec: the matching loop of section 4.3 is absent
from src/.  While the incoming order has remaining quantity and crosses
the front of the opposing priority list, match min of the remaining
quantities at the resting order price, emit a Trade, remove the resting
order if fully filled, and continue.  Returns the emitted trades, the
remaining incoming quantity, and the resulting opposing list. -/
def matchLoop (taker : Order) : List Order → List Trade × Int × List Order
  | [] => ([], taker.qty, [])
  | r :: rest =>
      if 0 < taker.qty ∧ crosses taker.side taker.price r.price then
        if taker.qty < r.qty then
          ([mkTrade r taker taker.qty], 0, { r with qty := r.qty - taker.qty } :: rest)
        else
          let res := matchLoop { taker with qty := taker.qty - r.qty } rest
          (mkTrade r taker r.qty :: res.1, res.2.1, res.2.2)
      else ([], taker.qty, r :: rest)

/-- The side of the book an incoming order matches against. -/
def oppSide (b : Book) : Side → List Order
  | .buy => b.asks
  | .sell => b.bids

/-- Error taxonomy of section 7 restricted to the commands modelled
here. -/
inductive EngineError where
  | invalidOrder
  | orderNotFound
deriving DecidableEq

/-- Modelled from the spec: engine state is the Order Book plus the
monotonic arrival sequence counter used to stamp incoming orders. -/
structure EngineState where
  book : Book
  nextSeq : Nat
deriving DecidableEq

/-- The initial engine state: empty book, sequence counter zero. -/
def initialState : EngineState := ⟨Book.empty, 0⟩

/-- Modelled from the spec: Submit (sections 4.3 and 7).  A non-positive
price or quantity fails fast with InvalidOrder before touching book
state.  Otherwise the incoming order is stamped with the next arrival
sequence, matched against the opposing side, and any unfilled remainder
is inserted as a resting order. -/
def submit (st : EngineState) (oid : Nat) (side : Side) (price qty : Int) :
    Except EngineError (List Trade) × EngineState :=
  if price ≤ 0 ∨ qty ≤ 0 then (.error .invalidOrder, st)
  else
    let o : Order := ⟨oid, side, price, qty, st.nextSeq⟩
    match side with
    | .buy =>
        let res := matchLoop o st.book.asks
        let bids' :=
          if 0 < res.2.1 then insertBid { o with qty := res.2.1 } st.book.bids
          else st.book.bids
        (.ok res.1, ⟨⟨bids', res.2.2⟩, st.nextSeq + 1⟩)
    | .sell =>
        let res := matchLoop o st.book.bids
        let asks' :=
          if 0 < res.2.1 then insertAsk { o with qty := res.2.1 } st.book.asks
          else st.book.asks
        (.ok res.1, ⟨⟨res.2.2, asks'⟩, st.nextSeq + 1⟩)

/-- Modelled from the spec: Cancel (sections 4.3 and 7).  Remove the
identified order from its ledger; fail with OrderNotFound, leaving the
book untouched, when no resting order carries that id. -/
def cancel (st : EngineState) (oid : Nat) :
    Except EngineError Unit × EngineState :=
  if (st.book.bids ++ st.book.asks).any (fun o => o.id = oid) then
    (.ok (), ⟨⟨st.book.bids.filter (fun o => o.id ≠ oid),
               st.book.asks.filter (fun o => o.id ≠ oid)⟩, st.nextSeq⟩)
  else (.error .orderNotFound, st)

/-- A Submit or Cancel command, as in the claim about command
sequences. -/
inductive Cmd where
  | submit (oid : Nat) (side : Side) (price qty : Int)
  | cancel (oid : Nat)
deriving DecidableEq

/-- Execute one command for its state effect. -/
def execCmd (st : EngineState) : Cmd → EngineState
  | .submit oid side price qty => (submit st oid side price qty).2
  | .cancel oid => (cancel st oid).2

/-- Execute a sequence of commands from the initial state. -/
def execCmds (cmds : List Cmd) : EngineState :=
  cmds.foldl execCmd initialState

/-- No crossed book: every resting bid price is strictly below every
resting ask price. -/
def uncrossed (b : Book) : Prop :=
  ∀ o ∈ b.bids, ∀ a ∈ b.asks, o.price < a.price

/-- Both sides are held in strict priority order. -/
def sortedBook (b : Book) : Prop :=
  b.bids.Pairwise bidBefore ∧ b.asks.Pairwise askBefore

/-- Every resting order has positive remaining quantity. -/
def posQty (b : Book) : Prop :=
  ∀ o ∈ b.bids ++ b.asks, 0 < o.qty

/-- All arrival sequence numbers in the book are below the counter. -/
def seqBound (st : EngineState) : Prop :=
  ∀ o ∈ st.book.bids ++ st.book.asks, o.seq < st.nextSeq

/-- The full engine invariant. -/
def Inv (st : EngineState) : Prop :=
  uncrossed st.book ∧ sortedBook st.book ∧ posQty st.book ∧ seqBound st

/-- Modelled from the spec (section 4.2 topLevels and section 3
Snapshot): group a priority-ordered side into price levels, each carrying
the aggregate remaining quantity at that price. -/
def levels : List Order → List (Int × Int)
  | [] => []
  | o :: rest =>
      match levels rest with
      | [] => [(o.price, o.qty)]
      | (p, q) :: ls =>
          if o.price = p then (p, o.qty + q) :: ls
          else (o.price, o.qty) :: (p, q) :: ls

/-- Modelled from the spec: the depth-limited Snapshot (sections 3 and
4.5) is absent from src/.  Up to MAX_ORDER_BOOK_DEPTH bid levels and ask
levels, best price first. -/
structure Snapshot where
  bidLevels : List (Int × Int)
  askLevels : List (Int × Int)
deriving DecidableEq

/-- Modelled from the spec: snapshot capture, taking topLevels of each
side truncated to the configured maximum depth. -/
def buildSnapshot (b : Book) : Snapshot :=
  { bidLevels := (levels b.bids).take MAX_ORDER_BOOK_DEPTH
    askLevels := (levels b.asks).take MAX_ORDER_BOOK_DEPTH }

/-- Claim C2: for every role and notional, the fee function returns the
notional multiplied by the configured percentage for that role, and the
shipped configuration sets the maker multiplier to 0.001 and the taker
multiplier to 0.002. -/
theorem fee_is_notional_times_configured_percentage (role : Role) (notional : Rat) :
    fee role notional =
      notional * (match role with
        | Role.maker => MAKER_FEE_PERCENTAGE
        | Role.taker => TAKER_FEE_PERCENTAGE) ∧
    MAKER_FEE_PERCENTAGE = 0.001 ∧ TAKER_FEE_PERCENTAGE = 0.002 := by
  refine ⟨rfl, ?_, ?_⟩ <;>
    norm_num [MAKER_FEE_PERCENTAGE, TAKER_FEE_PERCENTAGE,
      MAKER_FEE_PERCENTAGE_LIT, TAKER_FEE_PERCENTAGE_LIT, PyLit.toRat]

/-- Claim C3: fee computation over the fixed-point representation agrees
with exact arithmetic truncated toward zero (floor on nonnegative
notionals, odd symmetry on negation), is deterministic by virtue of being
a pure function, and the shipped configuration defines both fee
percentages as floating-point literals. -/
theorem fee_fixed_point_truncation :
    (∀ (role : Role) (n : Int), 0 ≤ n →
        feeFixed role n = ⌊fee role ((n : Int) : Rat)⌋) ∧
    (∀ (role : Role) (n : Int), feeFixed role (-n) = -feeFixed role n) ∧
    MAKER_FEE_PERCENTAGE_LIT.isFloat = true ∧
    TAKER_FEE_PERCENTAGE_LIT.isFloat = true := by
  refine ⟨?_, ?_, rfl, rfl⟩
  · intro role n hn
    have h1000 : ((1000 : Nat) : Rat) = (1000 : Rat) := by norm_num
    cases role
    · have hfee : fee Role.maker ((n : Int) : Rat) =
          ((n * 1 : Int) : Rat) / ((1000 : Nat) : Rat) := by
        simp only [fee, MAKER_FEE_PERCENTAGE, MAKER_FEE_PERCENTAGE_LIT, PyLit.toRat, h1000]
        push_cast
        ring
      rw [hfee, Rat.floor_intCast_div_natCast]
      simp only [feeFixed, feeRateScaled, FEE_SCALE]
      exact Int.tdiv_eq_ediv (by omega) (by omega)
    · have hfee : fee Role.taker ((n : Int) : Rat) =
          ((n * 2 : Int) : Rat) / ((1000 : Nat) : Rat) := by
        simp only [fee, TAKER_FEE_PERCENTAGE, TAKER_FEE_PERCENTAGE_LIT, PyLit.toRat, h1000]
        push_cast
        ring
      rw [hfee, Rat.floor_intCast_div_natCast]
      simp only [feeFixed, feeRateScaled, FEE_SCALE]
      exact Int.tdiv_eq_ediv (by omega) (by omega)
  · intro role n
    simp only [feeFixed]
    rw [Int.neg_mul, Int.neg_tdiv]

/-- Witness for C3 at concrete inputs. -/
theorem fee_fixed_point_truncation_witness :
    feeFixed Role.taker 12345 = ⌊fee Role.taker ((12345 : Int) : Rat)⌋ ∧
    feeFixed Role.maker (-7) = -feeFixed Role.maker 7 ∧
    MAKER_FEE_PERCENTAGE_LIT.isFloat = true :=
  ⟨fee_fixed_point_truncation.1 Role.taker 12345 (by norm_num),
   fee_fixed_point_truncation.2.1 Role.maker 7,
   fee_fixed_point_truncation.2.2.1⟩

/-- Claim C4: the shipped maker fee percentage does not exceed the
shipped taker fee percentage. -/
theorem maker_fee_le_taker_fee :
    MAKER_FEE_PERCENTAGE ≤ TAKER_FEE_PERCENTAGE := by
  norm_num [MAKER_FEE_PERCENTAGE, TAKER_FEE_PERCENTAGE,
    MAKER_FEE_PERCENTAGE_LIT, TAKER_FEE_PERCENTAGE_LIT, PyLit.toRat]

/-- Claim C9: the core configuration surface is five flat global scalar
values, whose shipped values are 0.001, 0.002, 300, 1 and 10. -/
theorem core_config_shipped_values :
    coreConfig.makerFeePercentage = 0.001 ∧
    coreConfig.takerFeePercentage = 0.002 ∧
    coreConfig.orderBookCacheTTL = 300 ∧
    coreConfig.orderBookUpdateInterval = 1 ∧
    coreConfig.maxOrderBookDepth = 10 := by
  refine ⟨?_, ?_, rfl, rfl, rfl⟩ <;>
    norm_num [coreConfig, MAKER_FEE_PERCENTAGE, TAKER_FEE_PERCENTAGE,
      MAKER_FEE_PERCENTAGE_LIT, TAKER_FEE_PERCENTAGE_LIT, PyLit.toRat]

/-- Claim C10: when the corresponding environment variable is unset, the
configuration module exposes the fixed hard-coded deployer private key and
account address, both non-empty, instead of failing. -/
theorem deployer_credentials_default (env : String → Option String)
    (hk : env DEPLOYER_PRIVATE_KEY_VAR = none)
    (ha : env DEPLOYER_ACCOUNT_ADDRESS_VAR = none) :
    DEPLOYER_PRIVATE_KEY env = DEFAULT_DEPLOYER_PRIVATE_KEY ∧
    DEPLOYER_ACCOUNT_ADDRESS env = DEFAULT_DEPLOYER_ACCOUNT_ADDRESS ∧
    DEFAULT_DEPLOYER_PRIVATE_KEY ≠ "" ∧
    DEFAULT_DEPLOYER_ACCOUNT_ADDRESS ≠ "" := by
  refine ⟨?_, ?_, by decide, by decide⟩
  · simp [DEPLOYER_PRIVATE_KEY, hk]
  · simp [DEPLOYER_ACCOUNT_ADDRESS, ha]

/-- Witness for C10 on the empty environment. -/
theorem deployer_credentials_default_witness :
    DEPLOYER_PRIVATE_KEY (fun _ => none) = DEFAULT_DEPLOYER_PRIVATE_KEY ∧
    DEPLOYER_ACCOUNT_ADDRESS (fun _ => none) = DEFAULT_DEPLOYER_ACCOUNT_ADDRESS ∧
    DEFAULT_DEPLOYER_PRIVATE_KEY ≠ "" ∧
    DEFAULT_DEPLOYER_ACCOUNT_ADDRESS ≠ "" :=
  deployer_credentials_default (fun _ => none) rfl rfl

/-- Claim C8: a Submit with non-positive price or quantity returns
InvalidOrder synchronously and leaves the engine state exactly as it
was. -/
theorem invalid_order_fails_fast (st : EngineState) (oid : Nat) (side : Side)
    (price qty : Int) (h : price ≤ 0 ∨ qty ≤ 0) :
    (submit st oid side price qty).1 = Except.error EngineError.invalidOrder ∧
    (submit st oid side price qty).2 = st := by
  simp only [submit, if_pos h]
  exact ⟨trivial, trivial⟩

/-- Witness for C8: submitting price 0 is rejected without mutation. -/
theorem invalid_order_fails_fast_witness :
    (submit initialState 1 Side.buy 0 5).1 = Except.error EngineError.invalidOrder ∧
    (submit initialState 1 Side.buy 0 5).2 = initialState :=
  invalid_order_fails_fast initialState 1 Side.buy 0 5 (Or.inl (by norm_num))

/-- Every order left on the opposing side by the matching loop descends
from an order of the input side: identity, price and arrival sequence are
unchanged (only the remaining quantity may shrink). -/
theorem matchLoop_mem (taker : Order) (l : List Order) :
    ∀ o ∈ (matchLoop taker l).2.2,
      ∃ o' ∈ l, o'.id = o.id ∧ o'.price = o.price ∧ o'.seq = o.seq := by
  induction l generalizing taker with
  | nil => simp [matchLoop]
  | cons r rest ih =>
      intro o ho
      simp only [matchLoop] at ho
      split_ifs at ho with h1 h2
      · dsimp only at ho
        rcases List.mem_cons.mp ho with h | h
        · exact ⟨r, List.mem_cons_self r rest, by simp [h]⟩
        · exact ⟨o, List.mem_cons_of_mem r h, rfl, rfl, rfl⟩
      · dsimp only at ho
        rcases ih _ o ho with ⟨o', ho', hh⟩
        exact ⟨o', List.mem_cons_of_mem r ho', hh⟩
      · dsimp only at ho
        rcases List.mem_cons.mp ho with h | h
        · exact ⟨r, List.mem_cons_self r rest, by simp [h]⟩
        · exact ⟨o, List.mem_cons_of_mem r h, rfl, rfl, rfl⟩

/-- The matching loop preserves any priority order that does not look at
remaining quantities. -/
theorem matchLoop_pairwise (R : Order → Order → Prop)
    (hR : ∀ a b q, R a b → R { a with qty := q } b)
    (taker : Order) (l : List Order) (hl : l.Pairwise R) :
    ((matchLoop taker l).2.2).Pairwise R := by
  induction l generalizing taker with
  | nil => simp [matchLoop]
  | cons r rest ih =>
      obtain ⟨hr, hrest⟩ := List.pairwise_cons.mp hl
      simp only [matchLoop]
      split_ifs with h1 h2
      · dsimp only
        exact List.Pairwise.cons (fun x hx => hR r x _ (hr x hx)) hrest
      · dsimp only
        exact ih _ hrest
      · dsimp only
        exact hl

/-- If the incoming order still has remaining quantity when the matching
loop finishes, nothing left on the opposing side crosses it.  The sorting
relation must propagate crossing from later to earlier orders. -/
theorem matchLoop_no_cross (R : Order → Order → Prop) (taker : Order) (l : List Order)
    (hR : ∀ a b, R a b → crosses taker.side taker.price b.price = true →
      crosses taker.side taker.price a.price = true)
    (hl : l.Pairwise R) (hrem : 0 < (matchLoop taker l).2.1) :
    ∀ o ∈ (matchLoop taker l).2.2, crosses taker.side taker.price o.price = false := by
  induction l generalizing taker with
  | nil => simp [matchLoop]
  | cons r rest ih =>
      obtain ⟨hr, hrest⟩ := List.pairwise_cons.mp hl
      simp only [matchLoop] at hrem ⊢
      split_ifs at hrem ⊢ with h1 h2
      · dsimp only at hrem
        omega
      · dsimp only at hrem ⊢
        exact ih _ hR hrest hrem
      · dsimp only at hrem ⊢
        have hq : 0 < taker.qty := hrem
        have hcr : crosses taker.side taker.price r.price = false := by
          rcases Bool.eq_false_or_eq_true (crosses taker.side taker.price r.price) with h | h
          · exact absurd ⟨hq, h⟩ h1
          · exact h
        intro o ho
        rcases List.mem_cons.mp ho with h | h
        · rw [h]; exact hcr
        · rcases Bool.eq_false_or_eq_true (crosses taker.side taker.price o.price) with hh | hh
          · exact absurd (hR r o (hr o h) hh) (by rw [hcr]; simp)
          · exact hh

/-- The matching loop preserves positivity of resting quantities. -/
theorem matchLoop_posQty (taker : Order) (l : List Order)
    (h : ∀ o ∈ l, 0 < o.qty) :
    ∀ o ∈ (matchLoop taker l).2.2, 0 < o.qty := by
  induction l generalizing taker with
  | nil => simp [matchLoop]
  | cons r rest ih =>
      intro o ho
      simp only [matchLoop] at ho
      split_ifs at ho with h1 h2
      · dsimp only at ho
        rcases List.mem_cons.mp ho with hh | hh
        · rw [hh]; dsimp only; omega
        · exact h o (List.mem_cons_of_mem r hh)
      · dsimp only at ho
        exact ih _ (fun x hx => h x (List.mem_cons_of_mem r hx)) o ho
      · dsimp only at ho
        exact h o ho

/-- The makers of the trades emitted by one matching loop are exactly the
first n orders of the opposing priority list, in order, for some n. -/
theorem matchLoop_makers_take (taker : Order) (l : List Order) :
    ∃ n, ((matchLoop taker l).1).map (fun tr => tr.makerId) =
      (l.take n).map (fun o => o.id) := by
  induction l generalizing taker with
  | nil => exact ⟨0, by simp [matchLoop]⟩
  | cons r rest ih =>
      simp only [matchLoop]
      split_ifs with h1 h2
      · exact ⟨1, by simp [mkTrade]⟩
      · obtain ⟨n, hn⟩ := ih { taker with qty := taker.qty - r.qty }
        exact ⟨n + 1, by simp [mkTrade, hn]⟩
      · exact ⟨0, by simp⟩

/-- Every trade emitted by the matching loop has a maker among the input
resting orders, and carries that resting order's price. -/
theorem matchLoop_maker_mem (taker : Order) (l : List Order) :
    ∀ tr ∈ (matchLoop taker l).1,
      ∃ r ∈ l, r.id = tr.makerId ∧ tr.price = r.price := by
  induction l generalizing taker with
  | nil => simp [matchLoop]
  | cons r rest ih =>
      intro tr htr
      simp only [matchLoop] at htr
      split_ifs at htr with h1 h2
      · dsimp only at htr
        rcases List.mem_cons.mp htr with h | h
        · exact ⟨r, List.mem_cons_self r rest, by simp [h, mkTrade]⟩
        · simp at h
      · dsimp only at htr
        rcases List.mem_cons.mp htr with h | h
        · exact ⟨r, List.mem_cons_self r rest, by simp [h, mkTrade]⟩
        · rcases ih _ tr h with ⟨r', hr', hh⟩
          exact ⟨r', List.mem_cons_of_mem r hr', hh⟩
      · simp at htr

/-- Membership after a bid insertion. -/
theorem insertBid_mem (o : Order) (l : List Order) :
    ∀ x ∈ insertBid o l, x = o ∨ x ∈ l := by
  induction l with
  | nil => simp [insertBid]
  | cons r rest ih =>
      intro x hx
      simp only [insertBid] at hx
      split_ifs at hx with h
      · rcases List.mem_cons.mp hx with hh | hh
        · exact Or.inl hh
        · exact Or.inr hh
      · rcases List.mem_cons.mp hx with hh | hh
        · exact Or.inr (by rw [hh]; exact List.mem_cons_self r rest)
        · rcases ih x hh with hh' | hh'
          · exact Or.inl hh'
          · exact Or.inr (List.mem_cons_of_mem r hh')

/-- Membership after an ask insertion. -/
theorem insertAsk_mem (o : Order) (l : List Order) :
    ∀ x ∈ insertAsk o l, x = o ∨ x ∈ l := by
  induction l with
  | nil => simp [insertAsk]
  | cons r rest ih =>
      intro x hx
      simp only [insertAsk] at hx
      split_ifs at hx with h
      · rcases List.mem_cons.mp hx with hh | hh
        · exact Or.inl hh
        · exact Or.inr hh
      · rcases List.mem_cons.mp hx with hh | hh
        · exact Or.inr (by rw [hh]; exact List.mem_cons_self r rest)
        · rcases ih x hh with hh' | hh'
          · exact Or.inl hh'
          · exact Or.inr (List.mem_cons_of_mem r hh')

/-- Inserting a bid with a fresh (larger) arrival sequence preserves the
bid priority order. -/
theorem insertBid_pairwise (o : Order) (l : List Order)
    (hl : l.Pairwise bidBefore) (hseq : ∀ r ∈ l, r.seq < o.seq) :
    (insertBid o l).Pairwise bidBefore := by
  induction l with
  | nil => simp [insertBid, List.pairwise_singleton]
  | cons r rest ih =>
      obtain ⟨hr, hrest⟩ := List.pairwise_cons.mp hl
      simp only [insertBid]
      split_ifs with h
      · refine List.Pairwise.cons ?_ hl
        intro x hx
        rcases List.mem_cons.mp hx with hh | hh
        · rw [hh]; exact Or.inl h
        · rcases hr x hh with hlt | ⟨heq, _⟩
          · exact Or.inl (lt_trans hlt h)
          · exact Or.inl (heq ▸ h)
      · refine List.Pairwise.cons ?_ (ih hrest (fun x hx => hseq x (List.mem_cons_of_mem r hx)))
        intro x hx
        rcases insertBid_mem o rest x hx with hh | hh
        · rw [hh]
          rcases lt_or_eq_of_le (le_of_not_lt h) with hlt | heq
          · exact Or.inl hlt
          · exact Or.inr ⟨heq.symm, hseq r (List.mem_cons_self r rest)⟩
        · exact hr x hh

/-- Inserting an ask with a fresh (larger) arrival sequence preserves the
ask priority order. -/
theorem insertAsk_pairwise (o : Order) (l : List Order)
    (hl : l.Pairwise askBefore) (hseq : ∀ r ∈ l, r.seq < o.seq) :
    (insertAsk o l).Pairwise askBefore := by
  induction l with
  | nil => simp [insertAsk, List.pairwise_singleton]
  | cons r rest ih =>
      obtain ⟨hr, hrest⟩ := List.pairwise_cons.mp hl
      simp only [insertAsk]
      split_ifs with h
      · refine List.Pairwise.cons ?_ hl
        intro x hx
        rcases List.mem_cons.mp hx with hh | hh
        · rw [hh]; exact Or.inl h
        · rcases hr x hh with hlt | ⟨heq, _⟩
          · exact Or.inl (lt_trans h hlt)
          · exact Or.inl (heq ▸ h)
      · refine List.Pairwise.cons ?_ (ih hrest (fun x hx => hseq x (List.mem_cons_of_mem r hx)))
        intro x hx
        rcases insertAsk_mem o rest x hx with hh | hh
        · rw [hh]
          rcases lt_or_eq_of_le (le_of_not_lt h) with hlt | heq
          · exact Or.inl hlt
          · exact Or.inr ⟨heq, hseq r (List.mem_cons_self r rest)⟩
        · exact hr x hh

/-- Submitting any command preserves the engine invariant. -/
theorem submit_inv (st : EngineState) (oid : Nat) (side : Side) (price qty : Int)
    (h : Inv st) : Inv (submit st oid side price qty).2 := by
  obtain ⟨hu, ⟨hsb, hsa⟩, hq, hs⟩ := h
  by_cases hv : price ≤ 0 ∨ qty ≤ 0
  · simp only [submit, if_pos hv]
    exact ⟨hu, ⟨hsb, hsa⟩, hq, hs⟩
  · cases side with
    | buy =>
        simp only [submit, if_neg hv]
        have hR : ∀ a b : Order, askBefore a b →
            crosses Side.buy price b.price = true →
            crosses Side.buy price a.price = true := by
          intro a b hab hcb
          have hb' : b.price ≤ price := by simpa [crosses] using hcb
          have hab' : a.price ≤ b.price := by
            rcases hab with hlt | ⟨heq, _⟩
            · omega
            · omega
          simpa [crosses] using le_trans hab' hb'
        have hmem := matchLoop_mem ⟨oid, Side.buy, price, qty, st.nextSeq⟩ st.book.asks
        have hpair := matchLoop_pairwise askBefore (fun a b q hab => hab)
          ⟨oid, Side.buy, price, qty, st.nextSeq⟩ st.book.asks hsa
        have hpos := matchLoop_posQty ⟨oid, Side.buy, price, qty, st.nextSeq⟩ st.book.asks
          (fun x hx => hq x (List.mem_append_right _ hx))
        by_cases hrem :
            0 < (matchLoop ⟨oid, Side.buy, price, qty, st.nextSeq⟩ st.book.asks).2.1
        · have hnc := matchLoop_no_cross askBefore
            ⟨oid, Side.buy, price, qty, st.nextSeq⟩ st.book.asks hR hsa hrem
          rw [if_pos hrem]
          refine ⟨?_, ⟨?_, ?_⟩, ?_, ?_⟩
          · intro b hb a ha
            obtain ⟨a0, ha0, _, hap, _⟩ := hmem a ha
            rcases insertBid_mem _ _ b hb with hbO | hbmem
            · have hcr := hnc a ha
              have : price < a.price := by simpa [crosses] using hcr
              rw [hbO]
              exact this
            · exact hap ▸ hu b hbmem a0 ha0
          · exact insertBid_pairwise _ _ hsb
              (fun r hr => hs r (List.mem_append_left _ hr))
          · exact hpair
          · intro o ho
            rcases List.mem_append.mp ho with hh | hh
            · rcases insertBid_mem _ _ o hh with hoO | homem
              · rw [hoO]
                exact hrem
              · exact hq o (List.mem_append_left _ homem)
            · exact hpos o hh
          · intro o ho
            rcases List.mem_append.mp ho with hh | hh
            · rcases insertBid_mem _ _ o hh with hoO | homem
              · rw [hoO]
                exact Nat.lt_succ_self st.nextSeq
              · exact Nat.lt_succ_of_lt (hs o (List.mem_append_left _ homem))
            · obtain ⟨o0, ho0, _, _, hosq⟩ := hmem o hh
              exact hosq ▸ Nat.lt_succ_of_lt (hs o0 (List.mem_append_right _ ho0))
        · rw [if_neg hrem]
          refine ⟨?_, ⟨?_, ?_⟩, ?_, ?_⟩
          · intro b hb a ha
            obtain ⟨a0, ha0, _, hap, _⟩ := hmem a ha
            exact hap ▸ hu b hb a0 ha0
          · exact hsb
          · exact hpair
          · intro o ho
            rcases List.mem_append.mp ho with hh | hh
            · exact hq o (List.mem_append_left _ hh)
            · exact hpos o hh
          · intro o ho
            rcases List.mem_append.mp ho with hh | hh
            · exact Nat.lt_succ_of_lt (hs o (List.mem_append_left _ hh))
            · obtain ⟨o0, ho0, _, _, hosq⟩ := hmem o hh
              exact hosq ▸ Nat.lt_succ_of_lt (hs o0 (List.mem_append_right _ ho0))
    | sell =>
        simp only [submit, if_neg hv]
        have hR : ∀ a b : Order, bidBefore a b →
            crosses Side.sell price b.price = true →
            crosses Side.sell price a.price = true := by
          intro a b hab hcb
          have hb' : price ≤ b.price := by simpa [crosses] using hcb
          have hab' : b.price ≤ a.price := by
            rcases hab with hlt | ⟨heq, _⟩
            · omega
            · omega
          simpa [crosses] using le_trans hb' hab'
        have hmem := matchLoop_mem ⟨oid, Side.sell, price, qty, st.nextSeq⟩ st.book.bids
        have hpair := matchLoop_pairwise bidBefore (fun a b q hab => hab)
          ⟨oid, Side.sell, price, qty, st.nextSeq⟩ st.book.bids hsb
        have hpos := matchLoop_posQty ⟨oid, Side.sell, price, qty, st.nextSeq⟩ st.book.bids
          (fun x hx => hq x (List.mem_append_left _ hx))
        by_cases hrem :
            0 < (matchLoop ⟨oid, Side.sell, price, qty, st.nextSeq⟩ st.book.bids).2.1
        · have hnc := matchLoop_no_cross bidBefore
            ⟨oid, Side.sell, price, qty, st.nextSeq⟩ st.book.bids hR hsb hrem
          rw [if_pos hrem]
          refine ⟨?_, ⟨?_, ?_⟩, ?_, ?_⟩
          · intro b hb a ha
            obtain ⟨b0, hb0, _, hbp, _⟩ := hmem b hb
            rcases insertAsk_mem _ _ a ha with haO | hamem
            · have hcr := hnc b hb
              have : b.price < price := by simpa [crosses] using hcr
              rw [haO]
              exact this
            · exact hbp ▸ hu b0 hb0 a hamem
          · exact hpair
          · exact insertAsk_pairwise _ _ hsa
              (fun r hr => hs r (List.mem_append_right _ hr))
          · intro o ho
            rcases List.mem_append.mp ho with hh | hh
            · exact hpos o hh
            · rcases insertAsk_mem _ _ o hh with hoO | homem
              · rw [hoO]
                exact hrem
              · exact hq o (List.mem_append_right _ homem)
          · intro o ho
            rcases List.mem_append.mp ho with hh | hh
            · obtain ⟨o0, ho0, _, _, hosq⟩ := hmem o hh
              exact hosq ▸ Nat.lt_succ_of_lt (hs o0 (List.mem_append_left _ ho0))
            · rcases insertAsk_mem _ _ o hh with hoO | homem
              · rw [hoO]
                exact Nat.lt_succ_self st.nextSeq
              · exact Nat.lt_succ_of_lt (hs o (List.mem_append_right _ homem))
        · rw [if_neg hrem]
          refine ⟨?_, ⟨?_, ?_⟩, ?_, ?_⟩
          · intro b hb a ha
            obtain ⟨b0, hb0, _, hbp, _⟩ := hmem b hb
            exact hbp ▸ hu b0 hb0 a ha
          · exact hpair
          · exact hsa
          · intro o ho
            rcases List.mem_append.mp ho with hh | hh
            · exact hpos o hh
            · exact hq o (List.mem_append_right _ hh)
          · intro o ho
            rcases List.mem_append.mp ho with hh | hh
            · obtain ⟨o0, ho0, _, _, hosq⟩ := hmem o hh
              exact hosq ▸ Nat.lt_succ_of_lt (hs o0 (List.mem_append_left _ ho0))
            · exact Nat.lt_succ_of_lt (hs o (List.mem_append_right _ hh))

/-- Cancelling preserves the engine invariant. -/
theorem cancel_inv (st : EngineState) (oid : Nat) (h : Inv st) :
    Inv (cancel st oid).2 := by
  obtain ⟨hu, ⟨hsb, hsa⟩, hq, hs⟩ := h
  by_cases hc : (st.book.bids ++ st.book.asks).any (fun o => o.id = oid)
  · simp only [cancel, if_pos hc]
    refine ⟨?_, ⟨?_, ?_⟩, ?_, ?_⟩
    · intro b hb a ha
      exact hu b (List.mem_of_mem_filter hb) a (List.mem_of_mem_filter ha)
    · exact hsb.sublist (List.filter_sublist _)
    · exact hsa.sublist (List.filter_sublist _)
    · intro o ho
      rcases List.mem_append.mp ho with hh | hh
      · exact hq o (List.mem_append_left _ (List.mem_of_mem_filter hh))
      · exact hq o (List.mem_append_right _ (List.mem_of_mem_filter hh))
    · intro o ho
      rcases List.mem_append.mp ho with hh | hh
      · exact hs o (List.mem_append_left _ (List.mem_of_mem_filter hh))
      · exact hs o (List.mem_append_right _ (List.mem_of_mem_filter hh))
  · simp only [cancel, if_neg hc]
    exact ⟨hu, ⟨hsb, hsa⟩, hq, hs⟩

/-- The initial state satisfies the engine invariant. -/
theorem inv_initial : Inv initialState := by
  refine ⟨?_, ⟨?_, ?_⟩, ?_, ?_⟩ <;>
    simp [uncrossed, sortedBook, posQty, seqBound, initialState, Book.empty]

/-- Every state reachable by a sequence of Submit and Cancel commands
satisfies the engine invariant. -/
theorem inv_execCmds (cmds : List Cmd) : Inv (execCmds cmds) := by
  suffices hgen : ∀ st, Inv st → Inv (cmds.foldl execCmd st) from
    hgen initialState inv_initial
  induction cmds with
  | nil => exact fun st hst => hst
  | cons c rest ih =>
      intro st hst
      simp only [List.foldl_cons]
      refine ih _ ?_
      cases c with
      | submit oid side price qty => exact submit_inv st oid side price qty hst
      | cancel oid => exact cancel_inv st oid hst

/-- The level aggregation of a nonempty side starts at the price of its
highest-priority order. -/
theorem levels_cons (o : Order) (rest : List Order) :
    ∃ q ls, levels (o :: rest) = (o.price, q) :: ls := by
  cases hrest : levels rest with
  | nil => exact ⟨o.qty, [], by simp [levels, hrest]⟩
  | cons hd tl =>
      obtain ⟨p, qq⟩ := hd
      by_cases hp : o.price = p
      · refine ⟨o.qty + qq, tl, ?_⟩
        simp [levels, hrest, hp]
      · exact ⟨o.qty, (p, qq) :: tl, by simp [levels, hrest, hp]⟩

/-- Level aggregation of a strictly priority-sorted side yields strictly
ordered level prices.  The relation ltp is the price order of the side
(descending for bids, ascending for asks); R is the priority order of the
side, assumed to refine ltp up to price ties. -/
theorem levels_pairwise (ltp : Int → Int → Prop) (R : Order → Order → Prop)
    (htr : Transitive ltp)
    (hR : ∀ a b, R a b → ltp a.price b.price ∨ a.price = b.price)
    (l : List Order) (hl : l.Pairwise R) :
    (levels l).Pairwise (fun x y => ltp x.1 y.1) := by
  induction l with
  | nil => simp [levels]
  | cons o rest ih =>
      obtain ⟨ho, hrest⟩ := List.pairwise_cons.mp hl
      have ihp := ih hrest
      cases hrec : levels rest with
      | nil =>
          have : levels (o :: rest) = [(o.price, o.qty)] := by simp [levels, hrec]
          rw [this]
          exact List.pairwise_singleton _ _
      | cons hd tl =>
          obtain ⟨p, qq⟩ := hd
          rw [hrec] at ihp
          obtain ⟨hph, hptl⟩ := List.pairwise_cons.mp ihp
          have hrest0 : ∃ r0 rest', rest = r0 :: rest' ∧ r0.price = p := by
            cases rest with
            | nil => simp [levels] at hrec
            | cons r0 rest' =>
                obtain ⟨q0, ls0, h0⟩ := levels_cons r0 rest'
                rw [h0] at hrec
                exact ⟨r0, rest', rfl, by injection hrec with h1 _; injection h1⟩
          obtain ⟨r0, rest', hr0, hr0p⟩ := hrest0
          by_cases hp : o.price = p
          · have : levels (o :: rest) = (p, o.qty + qq) :: tl := by
              simp [levels, hrec, hp]
            rw [this]
            exact List.Pairwise.cons hph hptl
          · have : levels (o :: rest) = (o.price, o.qty) :: (p, qq) :: tl := by
              simp [levels, hrec, hp]
            rw [this]
            have hop : ltp o.price p := by
              have := ho r0 (by rw [hr0]; exact List.mem_cons_self r0 rest')
              rcases hR o r0 this with hlt | heq
              · exact hr0p ▸ hlt
              · exact absurd (heq.trans hr0p) hp
            refine List.Pairwise.cons ?_ (List.Pairwise.cons hph hptl)
            intro y hy
            rcases List.mem_cons.mp hy with hh | hh
            · rw [hh]
              exact hop
            · exact htr hop (hph y hh)

/-- Claim C1: after every sequence of Submit and Cancel commands, the
book is never crossed: whenever both sides are nonempty, the best bid is
strictly below the best ask. -/
theorem no_crossed_book (cmds : List Cmd) (pb pa : Int)
    (hb : bestBid (execCmds cmds).book = some pb)
    (ha : bestAsk (execCmds cmds).book = some pa) : pb < pa := by
  obtain ⟨hu, _, _, _⟩ := inv_execCmds cmds
  obtain ⟨ob, hob, hobp⟩ := Option.map_eq_some'.mp hb
  obtain ⟨oa, hoa, hoap⟩ := Option.map_eq_some'.mp ha
  have hmb : ob ∈ (execCmds cmds).book.bids := List.mem_of_mem_head? hob
  have hma : oa ∈ (execCmds cmds).book.asks := List.mem_of_mem_head? hoa
  rw [← hobp, ← hoap]
  exact hu ob hmb oa hma

/-- Witness for C1 on a book with one resting bid and one resting ask. -/
theorem no_crossed_book_witness :
    bestBid (execCmds [Cmd.submit 1 Side.buy 100 5,
      Cmd.submit 2 Side.sell 101 5]).book = some 100 ∧
    bestAsk (execCmds [Cmd.submit 1 Side.buy 100 5,
      Cmd.submit 2 Side.sell 101 5]).book = some 101 ∧
    (100 : Int) < 101 := by
  have hb : bestBid (execCmds [Cmd.submit 1 Side.buy 100 5,
      Cmd.submit 2 Side.sell 101 5]).book = some 100 := by decide
  have ha : bestAsk (execCmds [Cmd.submit 1 Side.buy 100 5,
      Cmd.submit 2 Side.sell 101 5]).book = some 101 := by decide
  exact ⟨hb, ha, no_crossed_book _ 100 101 hb ha⟩

/-- Claim C7: after every sequence of commands, the snapshot holds at
most MAX_ORDER_BOOK_DEPTH levels per side, bid levels strictly descending
in price and ask levels strictly ascending in price (best first). -/
theorem snapshot_depth_and_order (cmds : List Cmd) :
    (buildSnapshot (execCmds cmds).book).bidLevels.length ≤ MAX_ORDER_BOOK_DEPTH ∧
    (buildSnapshot (execCmds cmds).book).askLevels.length ≤ MAX_ORDER_BOOK_DEPTH ∧
    (buildSnapshot (execCmds cmds).book).bidLevels.Pairwise (fun x y => y.1 < x.1) ∧
    (buildSnapshot (execCmds cmds).book).askLevels.Pairwise (fun x y => x.1 < y.1) := by
  obtain ⟨_, ⟨hsb, hsa⟩, _, _⟩ := inv_execCmds cmds
  refine ⟨?_, ?_, ?_, ?_⟩
  · exact List.length_take_le _ _
  · exact List.length_take_le _ _
  · refine List.Pairwise.sublist (List.take_sublist _ _) ?_
    refine levels_pairwise (fun x y => y < x) bidBefore ?_ ?_ _ hsb
    · intro a b c hab hbc
      omega
    · intro a b hab
      rcases hab with hlt | ⟨heq, _⟩
      · exact Or.inl hlt
      · exact Or.inr heq
  · refine List.Pairwise.sublist (List.take_sublist _ _) ?_
    refine levels_pairwise (fun x y => x < y) askBefore ?_ ?_ _ hsa
    · intro a b c hab hbc
      omega
    · intro a b hab
      rcases hab with hlt | ⟨heq, _⟩
      · exact Or.inl hlt
      · exact Or.inr heq

/-- Claim C5: every trade emitted by a Submit executes at the resting
(maker) order price, whatever the limit price of the incoming taker
order. -/
theorem trade_price_is_maker_price (st : EngineState) (oid : Nat) (side : Side)
    (price qty : Int) (ts : List Trade) (tr : Trade)
    (hok : (submit st oid side price qty).1 = Except.ok ts) (htr : tr ∈ ts) :
    ∃ r ∈ oppSide st.book side, r.id = tr.makerId ∧ tr.price = r.price := by
  by_cases hv : price ≤ 0 ∨ qty ≤ 0
  · simp [submit, if_pos hv] at hok
  · cases side with
    | buy =>
        simp only [submit, if_neg hv, Except.ok.injEq] at hok
        subst hok
        exact matchLoop_maker_mem _ _ tr htr
    | sell =>
        simp only [submit, if_neg hv, Except.ok.injEq] at hok
        subst hok
        exact matchLoop_maker_mem _ _ tr htr

/-- Witness for C5: a sell crossing one resting bid trades at the
resting bid price. -/
theorem trade_price_is_maker_price_witness :
    ∃ r ∈ oppSide ((submit initialState 1 Side.buy 100 10).2).book Side.sell,
      r.id = (mkTrade ⟨1, Side.buy, 100, 10, 0⟩ ⟨2, Side.sell, 100, 10, 1⟩ 10).makerId ∧
      (mkTrade ⟨1, Side.buy, 100, 10, 0⟩ ⟨2, Side.sell, 100, 10, 1⟩ 10).price = r.price :=
  trade_price_is_maker_price (submit initialState 1 Side.buy 100 10).2 2 Side.sell 100 10
    [mkTrade ⟨1, Side.buy, 100, 10, 0⟩ ⟨2, Side.sell, 100, 10, 1⟩ 10]
    (mkTrade ⟨1, Side.buy, 100, 10, 0⟩ ⟨2, Side.sell, 100, 10, 1⟩ 10) rfl
    (List.mem_singleton_self _)

/-- Claim C6: among two resting orders at the same price on the same
side (both priority lists are covered), the one with the lower arrival
sequence number is matched strictly earlier in the trade stream of any
Submit that matches the other; position in the queue, not size, decides,
and the match order is a deterministic function of the book. -/
theorem tie_break_lower_seq_first (taker r1 r2 : Order) (l : List Order)
    (hl : l.Pairwise askBefore ∨ l.Pairwise bidBefore)
    (hnd : (l.map (fun o => o.id)).Nodup)
    (h1 : r1 ∈ l) (h2 : r2 ∈ l)
    (hp : r1.price = r2.price) (hs : r1.seq < r2.seq)
    (hm : r2.id ∈ ((matchLoop taker l).1).map (fun tr => tr.makerId)) :
    ∃ (k1 k2 : Nat) (hk1 : k1 < ((matchLoop taker l).1).length)
      (hk2 : k2 < ((matchLoop taker l).1).length),
      k1 < k2 ∧
      (((matchLoop taker l).1).get ⟨k1, hk1⟩).makerId = r1.id ∧
      (((matchLoop taker l).1).get ⟨k2, hk2⟩).makerId = r2.id := by
  obtain ⟨i, hil, hi⟩ := List.getElem_of_mem h1
  obtain ⟨j, hjl, hj⟩ := List.getElem_of_mem h2
  have hij : i < j := by
    rcases lt_trichotomy i j with h | h | h
    · exact h
    · exfalso
      have : r1 = r2 := by
        rw [← hi, ← hj]
        congr 1
      rw [this] at hs
      exact lt_irrefl _ hs
    · exfalso
      rcases hl with hso | hso
      · have := List.pairwise_iff_getElem.mp hso j i hjl hil h
        rw [hi, hj] at this
        rcases this with hlt | ⟨_, hsq⟩
        · omega
        · omega
      · have := List.pairwise_iff_getElem.mp hso j i hjl hil h
        rw [hi, hj] at this
        rcases this with hlt | ⟨_, hsq⟩
        · omega
        · omega
  obtain ⟨n, hn⟩ := matchLoop_makers_take taker l
  rw [hn] at hm
  obtain ⟨m, hml, hmeq⟩ := List.getElem_of_mem hm
  have hml' : m < n ⊓ l.length := by
    have := hml
    rwa [List.length_map, List.length_take] at this
  have hml2 : m < l.length := lt_of_lt_of_le hml' (min_le_right _ _)
  have hbm : m < (l.map (fun o => o.id)).length := by
    rw [List.length_map]
    exact hml2
  have hbj : j < (l.map (fun o => o.id)).length := by
    rw [List.length_map]
    exact hjl
  have hbtm : m < (l.take n).length := by
    rw [List.length_take]
    exact hml'
  have hmid : (l.map (fun o => o.id))[m] = (l.map (fun o => o.id))[j] := by
    rw [List.getElem_map, List.getElem_map]
    have h1' : (l.take n)[m] = l[m] := List.getElem_take l
    rw [List.getElem_map, h1'] at hmeq
    rw [hmeq, hj]
  have hmj : m = j := (List.Nodup.getElem_inj_iff hnd).mp hmid
  have hjn : j < n := by
    have := lt_of_lt_of_le hml' (min_le_left _ _)
    omega
  have hTlen : ((matchLoop taker l).1).length = n ⊓ l.length := by
    have h1' : ((matchLoop taker l).1).length =
        (((matchLoop taker l).1).map (fun tr => tr.makerId)).length := by
      rw [List.length_map]
    rw [h1', hn, List.length_map, List.length_take]
  have hk2 : j < ((matchLoop taker l).1).length := by
    rw [hTlen]
    exact lt_min hjn hjl
  have hk1 : i < ((matchLoop taker l).1).length := lt_trans hij hk2
  have hbmi : i < (((matchLoop taker l).1).map (fun tr => tr.makerId)).length := by
    rw [List.length_map]
    exact hk1
  have hbmj : j < (((matchLoop taker l).1).map (fun tr => tr.makerId)).length := by
    rw [List.length_map]
    exact hk2
  have hbti : i < ((l.take n).map (fun o => o.id)).length := by
    rw [List.length_map, List.length_take]
    exact lt_trans hij (lt_min hjn hjl)
  have hbtj : j < ((l.take n).map (fun o => o.id)).length := by
    rw [List.length_map, List.length_take]
    exact lt_min hjn hjl
  refine ⟨i, j, hk1, hk2, hij, ?_, ?_⟩
  · have hmap : (((matchLoop taker l).1).map (fun tr => tr.makerId))[i] =
        ((l.take n).map (fun o => o.id))[i] := by
      simp only [hn]
    rw [List.getElem_map, List.getElem_map, List.getElem_take l] at hmap
    rw [List.get_eq_getElem]
    rw [hmap, hi]
  · have hmap : (((matchLoop taker l).1).map (fun tr => tr.makerId))[j] =
        ((l.take n).map (fun o => o.id))[j] := by
      simp only [hn]
    rw [List.getElem_map, List.getElem_map, List.getElem_take l] at hmap
    rw [List.get_eq_getElem]
    rw [hmap, hj]

/-- Witness for C6: two resting asks at price 100 with arrival sequences
0 and 1, both matched by one incoming buy; the earlier arrival trades
first. -/
theorem tie_break_lower_seq_first_witness :
    ∃ (k1 k2 : Nat)
      (hk1 : k1 < ((matchLoop ⟨30, Side.buy, 100, 8, 2⟩
        [⟨10, Side.sell, 100, 5, 0⟩, ⟨20, Side.sell, 100, 5, 1⟩]).1).length)
      (hk2 : k2 < ((matchLoop ⟨30, Side.buy, 100, 8, 2⟩
        [⟨10, Side.sell, 100, 5, 0⟩, ⟨20, Side.sell, 100, 5, 1⟩]).1).length),
      k1 < k2 ∧
      (((matchLoop ⟨30, Side.buy, 100, 8, 2⟩
        [⟨10, Side.sell, 100, 5, 0⟩, ⟨20, Side.sell, 100, 5, 1⟩]).1).get
          ⟨k1, hk1⟩).makerId = (⟨10, Side.sell, 100, 5, 0⟩ : Order).id ∧
      (((matchLoop ⟨30, Side.buy, 100, 8, 2⟩
        [⟨10, Side.sell, 100, 5, 0⟩, ⟨20, Side.sell, 100, 5, 1⟩]).1).get
          ⟨k2, hk2⟩).makerId = (⟨20, Side.sell, 100, 5, 1⟩ : Order).id :=
  tie_break_lower_seq_first ⟨30, Side.buy, 100, 8, 2⟩
    ⟨10, Side.sell, 100, 5, 0⟩ ⟨20, Side.sell, 100, 5, 1⟩
    [⟨10, Side.sell, 100, 5, 0⟩, ⟨20, Side.sell, 100, 5, 1⟩]
    (Or.inl (by
      refine List.Pairwise.cons ?_ (List.pairwise_singleton _ _)
      intro x hx
      rw [List.mem_singleton.mp hx]
      exact Or.inr ⟨rfl, by decide⟩))
    (by decide) (by decide) (by decide) rfl (by decide) (by decide)

end CtfExchange
